import Mathlib

/-!
Shallow embedding of `lstm.py` (UnconditionalLSTM / ConditionalLSTM).

Machine floats are modelled by exact rationals; a hidden-state vector of
dimension `d` is a function `Fin d → ℚ`.  The neural network itself
(embeddings, LSTM weights, projection) is treated as an opaque numeric map and
abstracted by explicit function parameters wherever a claim only concerns the
surrounding control flow; every piece of control flow, buffering, indexing and
arithmetic that the claims are about is translated literally from the source.
-/

set_option maxHeartbeats 1000000

/-- A hidden-state / measure-encoding vector of dimension `d`. -/
abbrev Vec (d : ℕ) := Fin d → ℚ

/-- The all-zero vector (`torch.zeros`). -/
def zeroVec (d : ℕ) : Vec d := fun _ => 0

/-- Arithmetic mean of a list of vectors (`torch.mean(torch.tensor(l), dim=0)`),
taken pointwise. -/
def vecMean {d : ℕ} (l : List (Vec d)) : Vec d :=
  fun i => (l.map (fun v => v i)).sum / (l.length : ℚ)

/- ----------------------------------------------------------------
   Top-k masking (`UnconditionalLSTM.mask_logits`, lines 400-408, and the
   identical `ConditionalLSTM.mask_logits`, lines 844-852).
   `torch.topk(logits, k)[0][:, -1]` is the k-th largest value of each row:
   we embed it as entry `k-1` of the row sorted in descending order.
   ---------------------------------------------------------------- -/

/-- Row sorted in descending order (the value part of `torch.topk` is this
list restricted to its first `k` entries). -/
def sortDesc (row : List ℚ) : List ℚ := row.insertionSort (· ≥ ·)

/-- The k-th largest value of a row: `torch.topk(row, k)[0][-1]`. -/
def kthLargest (row : List ℚ) (k : ℕ) : ℚ := (sortDesc row).getD (k - 1) 0

/-- One row of `torch.where(logits < batch_mins, -1e10, logits)`. -/
def maskRow (row : List ℚ) (k : ℕ) : List ℚ :=
  row.map (fun x => if x < kthLargest row k then -(10 ^ 10 : ℚ) else x)

/-- `UnconditionalLSTM.mask_logits` (= `ConditionalLSTM.mask_logits`):
with `k = None` the logits are returned unchanged, otherwise each row is
masked against its own k-th largest value. -/
def mask_logits (logits : List (List ℚ)) (k : Option ℕ) : List (List ℚ) :=
  match k with
  | none => logits
  | some kv => logits.map (fun row => maskRow row kv)

/- ----------------------------------------------------------------
   Measure-Encoding Aggregator
   (`UnconditionalLSTM.generate_measure_encodings`, lines 209-304).

   The dataset, after the batched LSTM forward pass, is a stream of
   positions, each carrying `(track_id, measure_id, hidden_vector)`; the
   nested `for batch_idx / for seq_len_idx` loops traverse this stream in
   order.  We embed the stream directly as a list of such triples and the
   loop body as a fold over it.
   ---------------------------------------------------------------- -/

/-- One dataset position: `(track_id, measure_id, model_hidden)`. -/
abbrev AggPos (d : ℕ) := ℕ × ℕ × Vec d

/-- Mutable state of the aggregation loop: the permanent result table
`track_id_to_measure_encodings`, the `buffer_dict`, and the running
`buffer_threshold`.  Both dict-of-dicts are embedded as total functions;
`none` (resp. `[]`) is key absence. -/
structure AggState (d : ℕ) where
  res : ℕ → ℕ → Option (Vec d)
  buf : ℕ → ℕ → List (Vec d)
  thr : ℕ

/-- Dumping the buffer into the result table: every `(track, measure)` bucket
present in the buffer overwrites the table entry with the mean of its hidden
states; absent keys leave the table untouched (lines 269-277 and 287-294). -/
def flushTable {d : ℕ} (res : ℕ → ℕ → Option (Vec d)) (buf : ℕ → ℕ → List (Vec d)) :
    ℕ → ℕ → Option (Vec d) :=
  fun t m => if buf t m = [] then res t m else some (vecMean (buf t m))

/-- `buffer_dict[track_id][measure_id].append(model_hidden)` (line 284). -/
def bufAppend {d : ℕ} (buf : ℕ → ℕ → List (Vec d)) (t m : ℕ) (v : Vec d) :
    ℕ → ℕ → List (Vec d) :=
  fun t1 m1 => if t = t1 ∧ m = m1 then buf t1 m1 ++ [v] else buf t1 m1

/-- Body of the position loop (lines 256-284): if the track id has reached the
watermark, dump the whole buffer into the result table, raise the threshold by
`inc` and restart from an empty buffer; then append the hidden state of the
current position to its bucket. -/
def aggStep {d : ℕ} (inc : ℕ) (s : AggState d) (p : AggPos d) : AggState d :=
  let s1 : AggState d :=
    if s.thr ≤ p.1 then
      { res := flushTable s.res s.buf, buf := fun _ _ => [], thr := s.thr + inc }
    else s
  { res := s1.res, buf := bufAppend s1.buf p.1 p.2.1 p.2.2, thr := s1.thr }

/-- Initial aggregation state: empty table, empty buffer, threshold `thr`. -/
def aggInit (d thr : ℕ) : AggState d :=
  { res := fun _ _ => none, buf := fun _ _ => [], thr := thr }

/-- The final dump of the buffer after the dataset is exhausted
(lines 287-294). -/
def aggFinal {d : ℕ} (s : AggState d) : ℕ → ℕ → Option (Vec d) :=
  flushTable s.res s.buf

/-- `UnconditionalLSTM.generate_measure_encodings`, as a map from the streamed
dataset to the persisted lookup table.  `buffer_threshold` and
`buffer_threshold_increment` are both hard-coded to 100 (lines 222-223). -/
def generate_measure_encodings {d : ℕ} (ps : List (AggPos d)) : ℕ → ℕ → Option (Vec d) :=
  aggFinal (ps.foldl (aggStep 100) (aggInit d 100))

/-- The flush decisions of the aggregation loop, as a function of the streamed
track ids alone: entry `i` is true exactly when processing position `i`
triggers a buffer dump. -/
def flushFlags (thr inc : ℕ) : List ℕ → List Bool
  | [] => []
  | t :: ts =>
    let fl := thr ≤ t
    fl :: flushFlags (if fl then thr + inc else thr) inc ts

/- Per-key projection of the aggregation loop.  For a fixed key `(t, m)` the
loop is equivalent to a fold over a list of events, one per position: the
flag records whether a buffer dump happens at that position, and the payload
is the hidden vector when the position carries the key `(t, m)`. -/

/-- Per-key event: (buffer dump happens here, hidden vector if this position
has the observed key). -/
abbrev KEvent (d : ℕ) := Bool × Option (Vec d)

/-- The event stream of key `(t, m)` for a dataset processed from watermark
`thr` with increment `inc`. -/
def keyEvents {d : ℕ} (thr inc t m : ℕ) : List (AggPos d) → List (KEvent d)
  | [] => []
  | p :: ps =>
    let fl := thr ≤ p.1
    (fl, if p.1 = t ∧ p.2.1 = m then some p.2.2 else none) ::
      keyEvents (if fl then thr + inc else thr) inc t m ps

/-- Per-key view of one loop iteration: a dump moves a nonempty bucket into
the table slot and clears the bucket, then the payload (if any) is appended. -/
def keyStep {d : ℕ} (s : Option (Vec d) × List (Vec d)) (e : KEvent d) :
    Option (Vec d) × List (Vec d) :=
  let s1 := if e.1 then ((if s.2 = [] then s.1 else some (vecMean s.2)), ([] : List (Vec d))) else s
  (s1.1, s1.2 ++ e.2.toList)

/-- Per-key view of the final dump. -/
def keyFinish {d : ℕ} (s : Option (Vec d) × List (Vec d)) : Option (Vec d) :=
  if s.2 = [] then s.1 else some (vecMean s.2)

/-- The hidden vectors carried by the events of a key, in stream order. -/
def kAppends {d : ℕ} (es : List (KEvent d)) : List (Vec d) := es.filterMap (fun e => e.2)

/-- All hidden vectors observed at positions with key `(t, m)`, in stream
order. -/
def keyVecs {d : ℕ} (ps : List (AggPos d)) (t m : ℕ) : List (Vec d) :=
  (ps.filter (fun p => p.1 = t ∧ p.2.1 = m)).map (fun p => p.2.2)

/-- The direct whole-dataset grouped-mean table: each key occurring in the
dataset maps to the arithmetic mean of all hidden vectors observed with that
key. -/
def directTable {d : ℕ} (ps : List (AggPos d)) : ℕ → ℕ → Option (Vec d) :=
  fun t m => if keyVecs ps t m = [] then none else some (vecMean (keyVecs ps t m))

/-- Key `(t, m)` (with event stream `es`) does not straddle a flush boundary:
either it never occurs, or its occurrences form one contiguous window of the
stream inside which no buffer dump fires (a dump at the very first occurrence
is harmless: it happens before that position is buffered). -/
def keyInOneEpoch {d : ℕ} (es : List (KEvent d)) : Prop :=
  kAppends es = [] ∨
    ∃ es1 e es2 es3, es = es1 ++ e :: es2 ++ es3 ∧
      kAppends es1 = [] ∧ (e.2).isSome ∧ (∀ x ∈ es2, x.1 = false) ∧ kAppends es3 = []

/-- The dataset ordering is compatible with the flush policy: no
`(track, measure)` key straddles a flush boundary of the run started at the
default watermark 100 with increment 100. -/
def noStraddle {d : ℕ} (ps : List (AggPos d)) : Prop :=
  ∀ t m, keyInOneEpoch (keyEvents 100 100 t m ps)

/- ----------------------------------------------------------------
   Conditional forward pass, conditioning lookup
   (`ConditionalLSTM.forward`, lines 490-543, conditioning part 509-533).
   ---------------------------------------------------------------- -/

/-- The measure-encoding lookup artifact: `self.measure_enc_lookup`, a
dict-of-dicts from track id to measure id to encoding, or `none` when no
lookup table was ever loaded. -/
abbrev EncLookup (d : ℕ) := Option (ℕ → Option (ℕ → Option (Vec d)))

/-- The conditioning vector `ConditionalLSTM.forward` uses for one position:
the zero-initialised `measure_encs` entry is only overwritten when
`measure_enc_lookup` is loaded, holds the track, and the track holds the
measure (lines 509-533); every `continue` leaves the zero vector in place,
and a `None` lookup keeps the whole tensor at zero (line 531). -/
def lookupEnc {d : ℕ} (lookup : EncLookup d) (t m : ℕ) : Vec d :=
  match lookup with
  | none => zeroVec d
  | some tbl =>
    match tbl t with
    | none => zeroVec d
    | some measures =>
      match measures m with
      | none => zeroVec d
      | some enc => enc

/-- The full `measure_encs` grid built by the nested `batch_idx` /
`seq_len_idx` loops of `ConditionalLSTM.forward`. -/
def measureEncsGrid {d : ℕ} (lookup : EncLookup d)
    (track_ids measure_ids : List (List ℕ)) : List (List (Vec d)) :=
  (track_ids.zip measure_ids).map
    (fun row => (row.1.zip row.2).map (fun p => lookupEnc lookup p.1 p.2))

/- ----------------------------------------------------------------
   Generation.

   The network plus its decode-step (temperature scaling, top-k masking,
   softmax, categorical draw or argmax) is abstracted as an oracle
   `sample : List ℕ → ℕ` mapping the current prefix to the next token id —
   the claims below only concern the control flow around it.
   ---------------------------------------------------------------- -/

/-- `UnconditionalLSTM.generate` (lines 319-356): autoregressive decoding that
starts from the seed condition and appends one sampled token per iteration. -/
def UnconditionalLSTM.generate (sample : List ℕ → ℕ) (condition : List ℕ)
    (length : ℕ) : List ℕ :=
  (List.range length).foldl (fun out _ => out ++ [sample out]) condition

/-- Phase A measure aggregation of `ConditionalLSTM.generate`
(lines 670-699): the truncated bass output is split into per-measure index
groups by the external `split_encoding_by_measure` collaborator, the bass
model recomputes its hidden states over the truncated output
(`bass_lstm_out`, abstracted as `hidden`), and each group is averaged. -/
def phaseA {d : ℕ} (split_by_measure : List ℕ → List (List ℕ))
    (hidden : List ℕ → List (Vec d)) (bassOut : List ℕ) : List (Vec d) :=
  (split_by_measure bassOut).map
    (fun idxs => vecMean (idxs.map (fun i => (hidden bassOut).getD i (zeroVec d))))

/-- `all_timings = np.arange(0, 16, 0.125)` (line 719): the 128 quarter-note
deltas an advance token can decode to. -/
def all_timings : List ℚ := (List.range 128).map (fun t : ℕ => (t : ℚ) * (1 / 8))

/-- Python float `%` with positive divisor: `x % 4 = x - 4 * floor (x / 4)`. -/
def pymod4 (x : ℚ) : ℚ := x - 4 * ((⌊x / 4⌋ : ℤ) : ℚ)

/-- Mutable state of the Phase B melody loop of `ConditionalLSTM.generate`:
the growing `output` prefix, the growing `measure_encs` conditioning
accumulator, the musical-time cursor `(cur_measure, measure_offset)`, and
whether the loop has hit its `break` (line 779). -/
structure GenState (d : ℕ) where
  output : List ℕ
  measureEncs : List (Vec d)
  curMeasure : ℕ
  measureOffset : ℚ
  stopped : Bool

/-- One iteration of the Phase B loop (lines 721-779): sample the next token
from the prefix, append it to `output`, append the encoding of
`min(cur_measure, num_bass_measures - 1)` to `measure_encs` (lines 763-767),
and if this index is an advance slot (`i % 3 == 2`) decode the token into a
quarter-note delta, advance the cursor, wrap past the 4-beat measure boundary
and stop once `cur_measure > num_bass_measures` (lines 770-779).  After the
`break` the state is frozen. -/
def genStep {d : ℕ} (sample : List ℕ → ℕ) (bassEncs : List (Vec d))
    (s : GenState d) (i : ℕ) : GenState d :=
  if s.stopped then s else
  let prev := sample s.output
  let output := s.output ++ [prev]
  let measureEncs :=
    s.measureEncs ++ [bassEncs.getD (min s.curMeasure (bassEncs.length - 1)) (zeroVec d)]
  if i % 3 = 2 then
    let offset := s.measureOffset + all_timings.getD prev 0
    if 4 < offset then
      { output := output, measureEncs := measureEncs, curMeasure := s.curMeasure + 1,
        measureOffset := pymod4 offset,
        stopped := decide (bassEncs.length < s.curMeasure + 1) }
    else
      { output := output, measureEncs := measureEncs, curMeasure := s.curMeasure,
        measureOffset := offset, stopped := false }
  else
    { output := output, measureEncs := measureEncs, curMeasure := s.curMeasure,
      measureOffset := s.measureOffset, stopped := false }

/-- Entry state of the Phase B loop (lines 705-717): the seed melody
condition, three copies of `bass_measure_encodings[0]`, measure 0 and a
one-quarter-note offset. -/
def genInit {d : ℕ} (bassEncs : List (Vec d)) (melody_condition : List ℕ) : GenState d :=
  { output := melody_condition,
    measureEncs := List.replicate 3 (bassEncs.getD 0 (zeroVec d)),
    curMeasure := 0, measureOffset := 1, stopped := false }

/-- The whole Phase B loop. -/
def genRun {d : ℕ} (sample : List ℕ → ℕ) (bassEncs : List (Vec d))
    (melody_condition : List ℕ) (melody_length : ℕ) : GenState d :=
  (List.range melody_length).foldl (genStep sample bassEncs) (genInit bassEncs melody_condition)

/-- The bassline model argument of `ConditionalLSTM.generate`, abstracted to
the two ways the method consumes it: its own autoregressive decode-step
oracle, and the hidden states its LSTM assigns to a token sequence. -/
structure BassModel (d : ℕ) where
  sample : List ℕ → ℕ
  hidden : List ℕ → List (Vec d)

/-- `ConditionalLSTM.generate` (lines 655-789).  Python binds the locals
`bassline_model_output`, `bass_measure_encodings` and `num_bass_measures`
only inside the `if bassline_model is not None` block (lines 663-699); we
model the local environment after that block as an `Option`.  Line 709 then
reads `bass_measure_encodings` unconditionally: when the name is unbound
Python raises `NameError`, embedded here as `Except.error`. -/
def ConditionalLSTM.generate {d : ℕ}
    (split_by_measure : List ℕ → List (List ℕ)) (melodySample : List ℕ → ℕ)
    (melody_condition bassline_condition : List ℕ) (bassline_model : Option (BassModel d))
    (bass_length melody_length : ℕ) : Except String (List ℕ × List ℕ) :=
  let phaseAVars : Option (List ℕ × List (Vec d)) :=
    bassline_model.map (fun bm =>
      let raw := UnconditionalLSTM.generate bm.sample bassline_condition bass_length
      -- line 668: cut off the last 3 tokens of the bassline output
      let bassOut := raw.take (raw.length - 3)
      (bassOut, phaseA split_by_measure bm.hidden bassOut))
  match phaseAVars with
  | none => Except.error "NameError: name bass_measure_encodings is not defined"
  | some (bassOut, bassEncs) =>
      Except.ok (bassOut, (genRun melodySample bassEncs melody_condition melody_length).output)

/- ----------------------------------------------------------------
   Shared helper lemmas.
   ---------------------------------------------------------------- -/

lemma getD_map_of_lt {α β : Type _} (f : α → β) (l : List α) (dB : β) (dA : α)
    {i : ℕ} (h : i < l.length) : (l.map f).getD i dB = f (l.getD i dA) := by
  rw [List.getD_eq_getElem _ _ (by simpa using h), List.getD_eq_getElem _ _ h,
    List.getElem_map]

lemma kthLargest_mem (row : List ℚ) (k : ℕ) (hk1 : 1 ≤ k) (hk2 : k ≤ row.length) :
    kthLargest row k ∈ row := by
  have hlen : k - 1 < (sortDesc row).length := by
    unfold sortDesc
    rw [List.length_insertionSort]
    omega
  rw [kthLargest, List.getD_eq_getElem _ _ hlen]
  exact (List.mem_insertionSort _).mp (List.getElem_mem hlen)

/-- C7: `mask_logits` with `k = None` is the identity; with an integer `k`
it masks each row against the k-th largest value of that row: entries strictly
below the threshold become the `-1e10` sentinel, entries greater than or
equal to it (ties included) are left unchanged. -/
theorem mask_logits_spec (logits : List (List ℚ)) (row : List ℚ) (k : ℕ)
    (hk1 : 1 ≤ k) (hk2 : k ≤ row.length) :
    mask_logits logits none = logits ∧
    mask_logits logits (some k) = logits.map (fun r => maskRow r k) ∧
    kthLargest row k ∈ row ∧
    (∀ i, i < row.length →
      (maskRow row k).getD i 0 =
        if row.getD i 0 < kthLargest row k then -(10 ^ 10 : ℚ) else row.getD i 0) ∧
    (∀ i, i < row.length → kthLargest row k ≤ row.getD i 0 →
      (maskRow row k).getD i 0 = row.getD i 0) := by
  refine ⟨rfl, rfl, kthLargest_mem row k hk1 hk2, ?_, ?_⟩
  · intro i hi
    exact getD_map_of_lt _ row 0 0 hi
  · intro i hi hge
    have h1 : (maskRow row k).getD i 0 =
        if row.getD i 0 < kthLargest row k then -(10 ^ 10 : ℚ) else row.getD i 0 :=
      getD_map_of_lt _ row 0 0 hi
    rw [h1, if_neg (not_lt.mpr hge)]

/-- C7 witness: row `[1, 5, 3, 5, 2]` with `k = 2`; the threshold 5 is a
member of the row and entries below it are masked, the duplicated 5 kept. -/
theorem mask_logits_spec_witness :
    (1 ≤ 2 ∧ 2 ≤ ([1, 5, 3, 5, 2] : List ℚ).length) ∧
    (mask_logits [[1, 5, 3, 5, 2]] none = [[1, 5, 3, 5, 2]] ∧
     mask_logits [[1, 5, 3, 5, 2]] (some 2)
       = [[1, 5, 3, 5, 2]].map (fun r => maskRow r 2) ∧
     kthLargest [1, 5, 3, 5, 2] 2 ∈ ([1, 5, 3, 5, 2] : List ℚ) ∧
     (∀ i, i < ([1, 5, 3, 5, 2] : List ℚ).length →
       (maskRow [1, 5, 3, 5, 2] 2).getD i 0 =
         if ([1, 5, 3, 5, 2] : List ℚ).getD i 0 < kthLargest [1, 5, 3, 5, 2] 2
         then -(10 ^ 10 : ℚ) else ([1, 5, 3, 5, 2] : List ℚ).getD i 0) ∧
     (∀ i, i < ([1, 5, 3, 5, 2] : List ℚ).length →
       kthLargest [1, 5, 3, 5, 2] 2 ≤ ([1, 5, 3, 5, 2] : List ℚ).getD i 0 →
       (maskRow [1, 5, 3, 5, 2] 2).getD i 0 = ([1, 5, 3, 5, 2] : List ℚ).getD i 0)) :=
  ⟨⟨by norm_num, by norm_num⟩, mask_logits_spec [[1, 5, 3, 5, 2]] [1, 5, 3, 5, 2] 2
    (by norm_num) (by norm_num)⟩

/-- C10: masking never replaces a maximal entry of the row: the k-th largest
value is at most the maximum, so every position holding the maximum survives
unchanged (and hence the maximum is still present after masking). -/
theorem mask_logits_keeps_max (row : List ℚ) (k : ℕ) (x : ℚ)
    (hk1 : 1 ≤ k) (hk2 : k ≤ row.length) (hx : x ∈ row) (hmax : ∀ y ∈ row, y ≤ x) :
    kthLargest row k ≤ x ∧ x ∈ maskRow row k ∧
    (∀ i, i < row.length → row.getD i 0 = x → (maskRow row k).getD i 0 = x) := by
  have hkth : kthLargest row k ≤ x := hmax _ (kthLargest_mem row k hk1 hk2)
  refine ⟨hkth, ?_, ?_⟩
  · have : (fun y => if y < kthLargest row k then -(10 ^ 10 : ℚ) else y) x = x :=
      if_neg (not_lt.mpr hkth)
    rw [maskRow, ← this]
    exact List.mem_map_of_mem _ hx
  · intro i hi hix
    have h1 : (maskRow row k).getD i 0 =
        if row.getD i 0 < kthLargest row k then -(10 ^ 10 : ℚ) else row.getD i 0 :=
      getD_map_of_lt _ row 0 0 hi
    rw [h1, hix, if_neg (not_lt.mpr hkth)]

/-- C10 witness: in row `[1, 5, 3, 5, 2]` with `k = 1` the maximum 5 keeps
its positions. -/
theorem mask_logits_keeps_max_witness :
    (1 ≤ 1 ∧ 1 ≤ ([1, 5, 3, 5, 2] : List ℚ).length ∧ (5 : ℚ) ∈ ([1, 5, 3, 5, 2] : List ℚ) ∧
      ∀ y ∈ ([1, 5, 3, 5, 2] : List ℚ), y ≤ 5) ∧
    (kthLargest [1, 5, 3, 5, 2] 1 ≤ 5 ∧ (5 : ℚ) ∈ maskRow [1, 5, 3, 5, 2] 1 ∧
     (∀ i, i < ([1, 5, 3, 5, 2] : List ℚ).length →
       ([1, 5, 3, 5, 2] : List ℚ).getD i 0 = 5 → (maskRow [1, 5, 3, 5, 2] 1).getD i 0 = 5)) :=
  ⟨⟨by norm_num, by norm_num, by norm_num, by norm_num⟩,
    mask_logits_keeps_max [1, 5, 3, 5, 2] 1 5 (by norm_num) (by norm_num)
      (by norm_num) (by norm_num)⟩


/-- C8: a position whose `(track_id, measure_id)` key is absent from the
measure-encoding lookup table — or a run with no lookup table loaded at all —
gets the zero vector as its conditioning vector in `ConditionalLSTM.forward`;
the miss is handled by a total function, not an exception. -/
theorem forward_lookup_miss_zero {d : ℕ} (lookup : EncLookup d) (t m : ℕ)
    (h : ∀ tbl, lookup = some tbl → ∀ ms, tbl t = some ms → ms m = none) :
    lookupEnc lookup t m = zeroVec d ∧
    measureEncsGrid lookup [[t]] [[m]] = [[zeroVec d]] := by
  have h1 : lookupEnc lookup t m = zeroVec d := by
    rcases hl : lookup with _ | tbl
    · rfl
    · rcases ht : tbl t with _ | ms
      · simp [lookupEnc, ht]
      · simp [lookupEnc, ht, h tbl hl ms ht]
  exact ⟨h1, by rw [measureEncsGrid]; simp [h1]⟩

/-- Concrete one-track lookup table used by the C8 witness: it knows only
track 0 / measure 0. -/
def tinyLookup : EncLookup 1 :=
  some (fun t => if t = 0 then some (fun m => if m = 0 then some (fun _ => 1) else none)
                 else none)

/-- C8 witness: under `tinyLookup`, the position with key `(0, 5)` misses the
table and is conditioned on the zero vector. -/
theorem forward_lookup_miss_zero_witness :
    lookupEnc tinyLookup 0 5 = zeroVec 1 ∧
    measureEncsGrid tinyLookup [[0]] [[5]] = [[zeroVec 1]] :=
  forward_lookup_miss_zero tinyLookup 0 5 (by
    intro tbl htbl ms hms
    rw [tinyLookup] at htbl
    have h2 := Option.some_inj.mp htbl
    rw [← h2] at hms
    simp only [if_pos rfl] at hms
    have h3 := Option.some_inj.mp hms
    rw [← h3]
    simp)

/-- C1: `ConditionalLSTM.generate` called without a bassline model (and the
method has no parameter for precomputed bass encodings at all) does not run
Phase A, but then crashes with a `NameError` when line 709 reads the unbound
local `bass_measure_encodings`, instead of degrading to zero-vector
conditioning.  The call is evaluated at the default arguments. -/
theorem generate_no_bass_model_raises :
    ConditionalLSTM.generate (d := 1) (fun _ => []) (fun _ => 0) [60, 8, 8] [36, 8, 8]
        none 120 240
      = Except.error "NameError: name bass_measure_encodings is not defined" := rfl

/-- C4: in the Phase B loop, a step whose index is an advance slot
(`i % 3 == 2`) decodes the sampled token through `all_timings` — the fixed
128-entry table holding `t * 0.125` quarter notes for `t = 0 .. 127` — adds
the delta to the cursor offset, and exactly when the new offset exceeds 4
increments the measure by one and reduces the offset modulo 4. -/
theorem advance_token_cursor {d : ℕ} (sample : List ℕ → ℕ) (bassEncs : List (Vec d))
    (s : GenState d) (i : ℕ) (hrun : s.stopped = false) (hadv : i % 3 = 2) :
    all_timings.length = 128 ∧
    (∀ tok, tok < 128 → all_timings.getD tok 0 = (tok : ℚ) * (1 / 8)) ∧
    ((genStep sample bassEncs s i).measureOffset =
      if 4 < s.measureOffset + all_timings.getD (sample s.output) 0
      then pymod4 (s.measureOffset + all_timings.getD (sample s.output) 0)
      else s.measureOffset + all_timings.getD (sample s.output) 0) ∧
    ((genStep sample bassEncs s i).curMeasure =
      if 4 < s.measureOffset + all_timings.getD (sample s.output) 0
      then s.curMeasure + 1 else s.curMeasure) := by
  refine ⟨by rw [all_timings, List.length_map, List.length_range], ?_, ?_, ?_⟩
  · intro tok htok
    have hlen : tok < (List.range 128).length := by rw [List.length_range]; exact htok
    rw [all_timings, List.getD_eq_getElem _ _ (by rw [List.length_map]; exact hlen),
      List.getElem_map, List.getElem_range]
  · simp only [genStep, hrun, Bool.false_eq_true, if_false, hadv, if_pos]
    split <;> rfl
  · simp only [genStep, hrun, Bool.false_eq_true, if_false, hadv, if_pos]
    split <;> rfl

/-- A one-measure bass encoding list and the Phase B initial state on it,
used as concrete inputs by the witnesses below. -/
def encsW : List (Vec 1) := [fun _ => 1]

/-- Initial Phase B state over `encsW` with the default melody condition. -/
def sW : GenState 1 := genInit encsW [60, 8, 8]

/-- C4 witness: from the initial state (offset 1), an advance token with id 40
at step index 2 drives the cursor through the claimed arithmetic. -/
theorem advance_token_cursor_witness :
    (sW.stopped = false ∧ 2 % 3 = 2) ∧
    ((genStep (fun _ => 40) encsW sW 2).curMeasure =
      if 4 < sW.measureOffset + all_timings.getD 40 0
      then sW.curMeasure + 1 else sW.curMeasure) :=
  ⟨⟨rfl, by norm_num⟩,
    (advance_token_cursor (fun _ => 40) encsW sW 2 rfl (by norm_num)).2.2.2⟩

/- Helper lemmas about the Phase B loop. -/

lemma genStep_frozen {d : ℕ} (sample : List ℕ → ℕ) (bassEncs : List (Vec d))
    (s : GenState d) (i : ℕ) (h : s.stopped = true) :
    genStep sample bassEncs s i = s := by
  simp [genStep, h]

lemma genStep_encs {d : ℕ} (sample : List ℕ → ℕ) (bassEncs : List (Vec d))
    (s : GenState d) (i : ℕ) (h : s.stopped = false) :
    (genStep sample bassEncs s i).measureEncs
      = s.measureEncs
          ++ [bassEncs.getD (min s.curMeasure (bassEncs.length - 1)) (zeroVec d)] := by
  simp only [genStep, h, Bool.false_eq_true, if_false]
  split
  · split <;> rfl
  · rfl

lemma genStep_output {d : ℕ} (sample : List ℕ → ℕ) (bassEncs : List (Vec d))
    (s : GenState d) (i : ℕ) (h : s.stopped = false) :
    (genStep sample bassEncs s i).output = s.output ++ [sample s.output] := by
  simp only [genStep, h, Bool.false_eq_true, if_false]
  split
  · split <;> rfl
  · rfl

lemma genStep_cur_le {d : ℕ} (sample : List ℕ → ℕ) (bassEncs : List (Vec d))
    (s : GenState d) (i : ℕ) : s.curMeasure ≤ (genStep sample bassEncs s i).curMeasure := by
  by_cases h : s.stopped = true
  · rw [genStep_frozen sample bassEncs s i h]
  · simp only [genStep, eq_false_of_ne_true h, Bool.false_eq_true, if_false]
    split
    · split
      · exact Nat.le_succ _
      · exact le_refl _
    · exact le_refl _

lemma genRun_succ {d : ℕ} (sample : List ℕ → ℕ) (bassEncs : List (Vec d))
    (mc : List ℕ) (len : ℕ) :
    genRun sample bassEncs mc (len + 1)
      = genStep sample bassEncs (genRun sample bassEncs mc len) len := by
  rw [genRun, genRun, List.range_succ, List.foldl_append]
  rfl

lemma genRun_cur_bound {d : ℕ} (sample : List ℕ → ℕ) (bassEncs : List (Vec d))
    (mc : List ℕ) : ∀ len : ℕ, (genRun sample bassEncs mc len).stopped = false →
      (genRun sample bassEncs mc len).curMeasure ≤ bassEncs.length := by
  intro len
  induction len with
  | zero => intro _; exact Nat.zero_le _
  | succ n ih =>
    intro hstop
    rw [genRun_succ] at hstop ⊢
    by_cases hs : (genRun sample bassEncs mc n).stopped = true
    · rw [genStep_frozen sample bassEncs _ n hs] at hstop
      rw [genStep_frozen sample bassEncs _ n hs]
      exact ih hstop
    · have hs0 : (genRun sample bassEncs mc n).stopped = false := eq_false_of_ne_true hs
      have hcur := ih hs0
      revert hstop
      simp only [genStep, hs0, Bool.false_eq_true, if_false]
      split
      · split
        · intro hstop
          simp only [decide_eq_false_iff_not, not_lt] at hstop
          exact hstop
        · intro _; exact hcur
      · intro _; exact hcur

/-- C5: every active Phase B step appends exactly one vector to the
conditioning accumulator `measure_encs` — the bass-measure encoding indexed
by `min(cur_measure, num_bass_measures - 1)`, an in-range index, so past the
last bass measure the final encoding is reused — the loop state stops
growing after the `break`, and along the whole run the accumulator stays in
lockstep with the emitted-token prefix (one entry per emitted token). -/
theorem conditioning_accumulator_spec {d : ℕ} (sample : List ℕ → ℕ)
    (bassEncs : List (Vec d)) (mc : List ℕ) (len : ℕ)
    (hn : 0 < bassEncs.length) (hmc : mc.length = 3) :
    (∀ (s : GenState d) (i : ℕ), s.stopped = false →
      (genStep sample bassEncs s i).measureEncs
        = s.measureEncs
            ++ [bassEncs.getD (min s.curMeasure (bassEncs.length - 1)) (zeroVec d)]) ∧
    (∀ s : GenState d, min s.curMeasure (bassEncs.length - 1) < bassEncs.length) ∧
    (∀ (s : GenState d) (i : ℕ), s.stopped = false → bassEncs.length ≤ s.curMeasure →
      (genStep sample bassEncs s i).measureEncs
        = s.measureEncs ++ [bassEncs.getD (bassEncs.length - 1) (zeroVec d)]) ∧
    (∀ (s : GenState d) (i : ℕ), s.stopped = true →
      (genStep sample bassEncs s i).measureEncs = s.measureEncs) ∧
    ((genRun sample bassEncs mc len).measureEncs.length
      = (genRun sample bassEncs mc len).output.length) := by
  refine ⟨genStep_encs sample bassEncs, fun s => by omega, ?_, ?_, ?_⟩
  · intro s i hrun hpast
    rw [genStep_encs sample bassEncs s i hrun, min_eq_right (by omega)]
  · intro s i hstop
    rw [genStep_frozen sample bassEncs s i hstop]
  · have key : ∀ (l : List ℕ) (s : GenState d), s.measureEncs.length = s.output.length →
        ((l.foldl (genStep sample bassEncs) s).measureEncs.length
          = (l.foldl (genStep sample bassEncs) s).output.length) := by
      intro l
      induction l with
      | nil => intro s hs; exact hs
      | cons a as ih =>
        intro s hs
        rw [List.foldl_cons]
        refine ih _ ?_
        by_cases h : s.stopped = true
        · rw [genStep_frozen sample bassEncs s a h]; exact hs
        · rw [genStep_encs sample bassEncs s a (eq_false_of_ne_true h),
            genStep_output sample bassEncs s a (eq_false_of_ne_true h),
            List.length_append, List.length_append, hs]
          rfl
    refine key _ _ ?_
    rw [genInit, hmc]
    simp

/-- C5 witness: one step on the initial state over the one-measure encoding
list `encsW` appends exactly the (clamped) measure-0 encoding. -/
theorem conditioning_accumulator_spec_witness :
    (0 < encsW.length ∧ ([60, 8, 8] : List ℕ).length = 3) ∧
    ((genRun (fun _ => 40) encsW [60, 8, 8] 5).measureEncs.length
      = (genRun (fun _ => 40) encsW [60, 8, 8] 5).output.length) :=
  ⟨⟨by norm_num [encsW], by norm_num⟩,
    (conditioning_accumulator_spec (fun _ => 40) encsW [60, 8, 8] 5
      (by norm_num [encsW]) (by norm_num)).2.2.2.2⟩

/-- C6: during one Phase B run `cur_measure` never decreases (per step, and
between run prefixes); while the loop is still live `cur_measure` never
exceeds the number of bass measures (the step that would push it past the
count sets the stop flag, terminating generation); past the last bass measure
the conditioning index is clamped to the final bass measure; and a stopped
run state is frozen, so no further token is emitted. -/
theorem cursor_monotone_clamped {d : ℕ} (sample : List ℕ → ℕ)
    (bassEncs : List (Vec d)) (mc : List ℕ) :
    (∀ (s : GenState d) (i : ℕ), s.curMeasure ≤ (genStep sample bassEncs s i).curMeasure) ∧
    (∀ len1 len2 : ℕ, len1 ≤ len2 →
      (genRun sample bassEncs mc len1).curMeasure
        ≤ (genRun sample bassEncs mc len2).curMeasure) ∧
    (∀ len : ℕ, (genRun sample bassEncs mc len).stopped = false →
      (genRun sample bassEncs mc len).curMeasure ≤ bassEncs.length) ∧
    (∀ (s : GenState d) (i : ℕ), s.stopped = false → bassEncs.length ≤ s.curMeasure →
      (genStep sample bassEncs s i).measureEncs
        = s.measureEncs ++ [bassEncs.getD (bassEncs.length - 1) (zeroVec d)]) ∧
    (∀ (s : GenState d) (i : ℕ), s.stopped = true → genStep sample bassEncs s i = s) := by
  refine ⟨genStep_cur_le sample bassEncs, ?_, genRun_cur_bound sample bassEncs mc, ?_,
    genStep_frozen sample bassEncs⟩
  · intro len1 len2 hle
    induction len2, hle using Nat.le_induction with
    | base => exact le_refl _
    | succ n hn ih =>
      rw [genRun_succ]
      exact le_trans ih (genStep_cur_le sample bassEncs _ n)
  · intro s i hrun hpast
    rw [genStep_encs sample bassEncs s i hrun, min_eq_right (by omega)]

/-- C6 witness: instantiated on the one-measure encodings `encsW` with run
prefixes of length 2 and 5, and on the frozen state. -/
theorem cursor_monotone_clamped_witness :
    (2 ≤ 5 ∧ sW.stopped = false ∧ encsW.length ≤ 3) ∧
    ((genRun (fun _ => 40) encsW [60, 8, 8] 2).curMeasure
      ≤ (genRun (fun _ => 40) encsW [60, 8, 8] 5).curMeasure) ∧
    ((genStep (fun _ => 40) encsW
        { output := sW.output, measureEncs := sW.measureEncs, curMeasure := 3,
          measureOffset := sW.measureOffset, stopped := false } 0).measureEncs
      = sW.measureEncs ++ [encsW.getD (encsW.length - 1) (zeroVec 1)]) :=
  ⟨⟨by norm_num, rfl, by norm_num [encsW]⟩,
    (cursor_monotone_clamped (fun _ => 40) encsW [60, 8, 8]).2.1 2 5 (by norm_num),
    (cursor_monotone_clamped (fun _ => 40) encsW [60, 8, 8]).2.2.2.1
      { output := sW.output, measureEncs := sW.measureEncs, curMeasure := 3,
        measureOffset := sW.measureOffset, stopped := false } 0 rfl (by norm_num [encsW])⟩

/-- The truncated bassline output of Phase A: the bassline model output with
its last 3 tokens cut off (line 668). -/
def bassTrunc {d : ℕ} (bm : BassModel d) (bassline_condition : List ℕ)
    (bass_length : ℕ) : List ℕ :=
  (UnconditionalLSTM.generate bm.sample bassline_condition bass_length).take
    ((UnconditionalLSTM.generate bm.sample bassline_condition bass_length).length - 3)

/-- C9: with a bass model supplied, Phase A runs the bass model
autoregressively (each extra step appends one sampled token to the prefix),
removes the trailing 3 tokens, partitions the rest through the external
split-by-measure collaborator, and produces exactly one encoding per measure
group, in group order, each the mean of the recomputed bass hidden states at
the indices of that group; `ConditionalLSTM.generate` then decodes the melody
against exactly these encodings. -/
theorem phaseA_bass_measure_encodings {d : ℕ}
    (split_by_measure : List ℕ → List (List ℕ)) (bm : BassModel d)
    (melodySample : List ℕ → ℕ) (bassline_condition melody_condition : List ℕ)
    (bass_length melody_length : ℕ) (g : ℕ)
    (hg : g < (split_by_measure (bassTrunc bm bassline_condition bass_length)).length) :
    (∀ n : ℕ, UnconditionalLSTM.generate bm.sample bassline_condition (n + 1)
      = UnconditionalLSTM.generate bm.sample bassline_condition n
          ++ [bm.sample (UnconditionalLSTM.generate bm.sample bassline_condition n)]) ∧
    ((phaseA split_by_measure bm.hidden (bassTrunc bm bassline_condition bass_length)).length
      = (split_by_measure (bassTrunc bm bassline_condition bass_length)).length) ∧
    ((phaseA split_by_measure bm.hidden (bassTrunc bm bassline_condition bass_length)).getD g
        (zeroVec d)
      = vecMean
          (((split_by_measure (bassTrunc bm bassline_condition bass_length)).getD g []).map
            (fun i =>
              (bm.hidden (bassTrunc bm bassline_condition bass_length)).getD i (zeroVec d)))) ∧
    (ConditionalLSTM.generate split_by_measure melodySample melody_condition
        bassline_condition (some bm) bass_length melody_length
      = Except.ok (bassTrunc bm bassline_condition bass_length,
          (genRun melodySample
            (phaseA split_by_measure bm.hidden (bassTrunc bm bassline_condition bass_length))
            melody_condition melody_length).output)) := by
  refine ⟨?_, by rw [phaseA, List.length_map], ?_, rfl⟩
  · intro n
    rw [UnconditionalLSTM.generate, List.range_succ, List.foldl_append]
    rfl
  · rw [phaseA]
    exact getD_map_of_lt _ _ (zeroVec d) [] hg

/-- Scripted bass decode oracle realising the 9-token two-measure scenario:
from the seed `[60, 8, 8]` it emits `62, 8, 8, 64, 8, 8` and then filler. -/
def bmW : BassModel 1 :=
  { sample := fun out => [60, 8, 8, 62, 8, 8, 64, 8, 8, 99, 99, 99].getD out.length 0,
    hidden := fun toks => toks.map (fun t => fun _ => (t : ℚ)) }

/-- Synthetic split-by-measure collaborator for the scenario. -/
def splitW : List ℕ → List (List ℕ) := fun _ => [[0, 1, 2], [3, 4, 5, 6, 7, 8]]

/-- C9 witness: with `bass_length = 9` the truncated bass output is the
scenario sequence `[60, 8, 8, 62, 8, 8, 64, 8, 8]`, the split has two groups,
and group 1 yields the mean of the hidden states at indices 3..8. -/
theorem phaseA_bass_measure_encodings_witness :
    bassTrunc bmW [60, 8, 8] 9 = [60, 8, 8, 62, 8, 8, 64, 8, 8] ∧
    (1 < (splitW (bassTrunc bmW [60, 8, 8] 9)).length) ∧
    ((phaseA splitW bmW.hidden (bassTrunc bmW [60, 8, 8] 9)).length
      = (splitW (bassTrunc bmW [60, 8, 8] 9)).length) ∧
    ((phaseA splitW bmW.hidden (bassTrunc bmW [60, 8, 8] 9)).getD 1 (zeroVec 1)
      = vecMean (((splitW (bassTrunc bmW [60, 8, 8] 9)).getD 1 []).map
          (fun i => (bmW.hidden (bassTrunc bmW [60, 8, 8] 9)).getD i (zeroVec 1)))) :=
  ⟨rfl, by norm_num [splitW],
    (phaseA_bass_measure_encodings splitW bmW (fun _ => 0) [60, 8, 8] [60, 8, 8] 9 240 1
      (by norm_num [splitW])).2.1,
    (phaseA_bass_measure_encodings splitW bmW (fun _ => 0) [60, 8, 8] [60, 8, 8] 9 240 1
      (by norm_num [splitW])).2.2.1⟩

/- Helper lemmas for the aggregator: per-key projection of the loop. -/

lemma aggStep_thr {d : ℕ} (inc : ℕ) (s : AggState d) (p : AggPos d) :
    (aggStep inc s p).thr = if s.thr ≤ p.1 then s.thr + inc else s.thr := by
  rw [aggStep]
  split <;> rfl

lemma kAppends_cons {d : ℕ} (e : KEvent d) (es : List (KEvent d)) :
    kAppends (e :: es) = e.2.toList ++ kAppends es := by
  rcases e with ⟨fl, _ | v⟩ <;> simp [kAppends]

lemma kAppends_append {d : ℕ} (a b : List (KEvent d)) :
    kAppends (a ++ b) = kAppends a ++ kAppends b :=
  List.filterMap_append a b _

lemma aggStep_proj {d : ℕ} (inc t m : ℕ) (s : AggState d) (p : AggPos d) :
    ((aggStep inc s p).res t m, (aggStep inc s p).buf t m)
      = keyStep (s.res t m, s.buf t m)
          (decide (s.thr ≤ p.1), if p.1 = t ∧ p.2.1 = m then some p.2.2 else none) := by
  obtain ⟨t1, m1, v⟩ := p
  simp only
  by_cases h : s.thr ≤ t1 <;> by_cases hk : t1 = t ∧ m1 = m
  · rcases hk with ⟨ht, hm⟩
    subst ht
    subst hm
    simp [aggStep, keyStep, bufAppend, flushTable, h]
  · simp [aggStep, keyStep, bufAppend, flushTable, h, hk]
  · rcases hk with ⟨ht, hm⟩
    subst ht
    subst hm
    simp [aggStep, keyStep, bufAppend, flushTable, h]
  · simp [aggStep, keyStep, bufAppend, flushTable, h, hk]

lemma agg_proj {d : ℕ} (inc t m : ℕ) :
    ∀ (ps : List (AggPos d)) (s : AggState d),
      ((ps.foldl (aggStep inc) s).res t m, (ps.foldl (aggStep inc) s).buf t m)
        = (keyEvents s.thr inc t m ps).foldl keyStep (s.res t m, s.buf t m) := by
  intro ps
  induction ps with
  | nil => intro s; rfl
  | cons p ps ih =>
    intro s
    rw [List.foldl_cons, ih (aggStep inc s p), keyEvents]
    simp only [List.foldl_cons]
    rw [aggStep_proj inc t m s p, aggStep_thr]

lemma keyStep_payload_none {d : ℕ} (s : Option (Vec d) × List (Vec d)) (e : KEvent d)
    (h : e.2 = none) (h2 : s.2 = []) : keyStep s e = (s.1, []) := by
  rcases e with ⟨fl, e2⟩
  rcases s with ⟨r, b⟩
  simp only at h h2
  subst h h2
  cases fl <;> simp [keyStep]

lemma toList_nil {α : Type _} {o : Option α} (h : o.toList = []) : o = none := by
  cases o
  · rfl
  · simp at h

lemma keyfold_no_append {d : ℕ} :
    ∀ (es : List (KEvent d)) (r : Option (Vec d)),
      kAppends es = [] → es.foldl keyStep (r, []) = (r, []) := by
  intro es
  induction es with
  | nil => intro r _; rfl
  | cons e es ih =>
    intro r h
    rw [kAppends_cons] at h
    rcases List.append_eq_nil.mp h with ⟨h1, h2⟩
    rw [List.foldl_cons, keyStep_payload_none (r, []) e (toList_nil h1) rfl]
    exact ih r h2

lemma keyfold_no_flush {d : ℕ} :
    ∀ (es : List (KEvent d)) (s : Option (Vec d) × List (Vec d)),
      (∀ x ∈ es, x.1 = false) → es.foldl keyStep s = (s.1, s.2 ++ kAppends es) := by
  intro es
  induction es with
  | nil => intro s _; simp [kAppends]
  | cons e es ih =>
    intro s h
    have he : e.1 = false := h e (List.mem_cons_self e es)
    have hstep : keyStep s e = (s.1, s.2 ++ e.2.toList) := by
      rcases e with ⟨fl, e2⟩
      simp only at he
      subst he
      simp [keyStep]
    rw [List.foldl_cons, hstep, ih _ (fun x hx => h x (List.mem_cons_of_mem e hx)),
      kAppends_cons, List.append_assoc]

lemma keyFinish_step_no_payload {d : ℕ} (s : Option (Vec d) × List (Vec d)) (e : KEvent d)
    (h : e.2 = none) : keyFinish (keyStep s e) = keyFinish s := by
  rcases e with ⟨fl, e2⟩
  rcases s with ⟨r, b⟩
  simp only at h
  subst h
  cases fl
  · simp [keyStep]
  · by_cases hb : b = [] <;> simp [keyStep, keyFinish, hb]

lemma keyFinish_no_append {d : ℕ} :
    ∀ (es : List (KEvent d)) (s : Option (Vec d) × List (Vec d)),
      kAppends es = [] → keyFinish (es.foldl keyStep s) = keyFinish s := by
  intro es
  induction es with
  | nil => intro s _; rfl
  | cons e es ih =>
    intro s h
    rw [kAppends_cons] at h
    rcases List.append_eq_nil.mp h with ⟨h1, h2⟩
    rw [List.foldl_cons, ih _ h2, keyFinish_step_no_payload s e (toList_nil h1)]

lemma keyFinish_char {d : ℕ} (es : List (KEvent d)) (h : keyInOneEpoch es) :
    keyFinish (es.foldl keyStep (none, []))
      = if kAppends es = [] then none else some (vecMean (kAppends es)) := by
  rcases h with h0 | ⟨es1, e, es2, es3, heq, h1, h2, h3, h4⟩
  · rw [if_pos h0, keyfold_no_append es none h0]
    rfl
  · obtain ⟨v, hv⟩ := Option.isSome_iff_exists.mp h2
    subst heq
    have hstepv : keyStep ((none : Option (Vec d)), ([] : List (Vec d))) e = (none, [v]) := by
      rcases e with ⟨fl, e2⟩
      simp only at hv
      subst hv
      cases fl <;> simp [keyStep]
    rw [List.foldl_append, List.foldl_append, keyfold_no_append es1 none h1,
      List.foldl_cons, hstepv, keyfold_no_flush es2 _ h3, keyFinish_no_append es3 _ h4]
    have hk : kAppends (es1 ++ e :: es2 ++ es3) = v :: kAppends es2 := by
      rw [kAppends_append, kAppends_append, h1, h4, kAppends_cons, hv]
      simp
    rw [hk, keyFinish]
    simp

lemma kAppends_keyEvents {d : ℕ} (inc t m : ℕ) :
    ∀ (ps : List (AggPos d)) (thr : ℕ),
      kAppends (keyEvents thr inc t m ps) = keyVecs ps t m := by
  intro ps
  induction ps with
  | nil => intro thr; rfl
  | cons p ps ih =>
    intro thr
    rw [keyEvents, kAppends_cons, ih, keyVecs, keyVecs]
    by_cases hk : p.1 = t ∧ p.2.1 = m <;> simp [List.filter_cons, hk]

/-- C2: on any dataset in which no `(track, measure)` key straddles a flush
boundary, the lookup table built by `generate_measure_encodings` maps every
key to the exact arithmetic mean of all hidden vectors observed with that key
(and to nothing for keys never observed) — which is precisely the direct
whole-dataset grouped-mean table: the incremental flushing does not change
the result. -/
theorem generate_measure_encodings_eq_grouped_mean {d : ℕ} (ps : List (AggPos d))
    (h : noStraddle ps) (t m : ℕ) :
    (generate_measure_encodings ps t m
      = if keyVecs ps t m = [] then none else some (vecMean (keyVecs ps t m))) ∧
    generate_measure_encodings ps t m = directTable ps t m := by
  have h1 : generate_measure_encodings ps t m
      = keyFinish ((keyEvents 100 100 t m ps).foldl keyStep
          ((aggInit d 100).res t m, (aggInit d 100).buf t m)) := by
    rw [generate_measure_encodings, aggFinal]
    show keyFinish ((ps.foldl (aggStep 100) (aggInit d 100)).res t m,
      (ps.foldl (aggStep 100) (aggInit d 100)).buf t m) = _
    rw [agg_proj 100 t m ps (aggInit d 100)]
    rfl
  have h2 : generate_measure_encodings ps t m
      = if keyVecs ps t m = [] then none else some (vecMean (keyVecs ps t m)) := by
    rw [h1]
    show keyFinish ((keyEvents 100 100 t m ps).foldl keyStep (none, [])) = _
    rw [keyFinish_char _ (h t m), kAppends_keyEvents]
  exact ⟨h2, h2⟩

/-- Concrete three-position dataset for the C2 witness: two observations of
key `(0, 0)` followed by one of key `(1, 0)`; no flush fires, so no key
straddles a boundary. -/
def psW : List (AggPos 1) := [(0, 0, fun _ => 1), (0, 0, fun _ => 2), (1, 0, fun _ => 4)]

lemma psW_noStraddle : noStraddle psW := by
  intro t m
  by_cases h00 : 0 = t ∧ 0 = m
  · rcases h00 with ⟨ht, hm⟩
    subst ht
    subst hm
    exact Or.inr ⟨[], (false, some (fun _ => 1)), [(false, some (fun _ => 2)), (false, none)],
      [], rfl, rfl, rfl, by simp, rfl⟩
  · by_cases h10 : 1 = t ∧ 0 = m
    · rcases h10 with ⟨ht, hm⟩
      subst ht
      subst hm
      refine Or.inr ⟨[(false, none), (false, none)], (false, some (fun _ => 4)), [], [],
        ?_, rfl, rfl, by simp, rfl⟩
      show keyEvents 100 100 1 0 psW = _
      simp [keyEvents, psW]
    · refine Or.inl ?_
      show kAppends (keyEvents 100 100 t m psW) = []
      simp [keyEvents, psW, kAppends, h00, h10]

/-- C2 witness: on `psW` the aggregator table and the direct grouped-mean
table agree at key `(0, 0)`. -/
theorem generate_measure_encodings_eq_grouped_mean_witness :
    noStraddle psW ∧ generate_measure_encodings psW 0 0 = directTable psW 0 0 :=
  ⟨psW_noStraddle,
    (generate_measure_encodings_eq_grouped_mean psW psW_noStraddle 0 0).2⟩

/- Helper lemmas for the 150-track aggregator scenario (C3). -/

lemma vecMean_singleton {d : ℕ} (v : Vec d) : vecMean [v] = v := by
  funext i
  rw [vecMean]
  simp

lemma agg_fold_no_flush {d : ℕ} (inc : ℕ) :
    ∀ (ps : List (AggPos d)) (s : AggState d), (∀ p ∈ ps, p.1 < s.thr) →
      ps.foldl (aggStep inc) s
        = { res := s.res,
            buf := ps.foldl (fun b p => bufAppend b p.1 p.2.1 p.2.2) s.buf,
            thr := s.thr } := by
  intro ps
  induction ps with
  | nil => intro s _; rfl
  | cons p ps ih =>
    intro s h
    rw [List.foldl_cons, List.foldl_cons]
    have hp : p.1 < s.thr := h p (List.mem_cons_self p ps)
    have hstep : aggStep inc s p
        = { res := s.res, buf := bufAppend s.buf p.1 p.2.1 p.2.2, thr := s.thr } := by
      rw [aggStep]
      simp [not_le.mpr hp]
    rw [hstep]
    exact ih _ (fun q hq => h q (List.mem_cons_of_mem p hq))

lemma buf_range' {d : ℕ} (v : ℕ → Vec d) :
    ∀ (n a : ℕ) (b : ℕ → ℕ → List (Vec d)),
      ((List.range' a n).map (fun t : ℕ => ((t, 0, v t) : AggPos d))).foldl
          (fun b p => bufAppend b p.1 p.2.1 p.2.2) b
        = fun t1 m1 =>
            if a ≤ t1 ∧ t1 < a + n ∧ m1 = 0 then b t1 m1 ++ [v t1] else b t1 m1 := by
  intro n
  induction n with
  | zero =>
    intro a b
    funext t1 m1
    rw [List.range'_zero, List.map_nil, List.foldl_nil, if_neg (by omega)]
  | succ n ih =>
    intro a b
    rw [List.range'_succ, List.map_cons, List.foldl_cons, ih (a + 1)]
    funext t1 m1
    by_cases hA : a + 1 ≤ t1 ∧ t1 < a + 1 + n ∧ m1 = 0
    · rw [if_pos hA, if_pos (show a ≤ t1 ∧ t1 < a + (n + 1) ∧ m1 = 0 by omega)]
      have hb : bufAppend b a 0 (v a) t1 m1 = b t1 m1 := by
        rw [bufAppend, if_neg (by omega)]
      rw [hb]
    · rw [if_neg hA]
      by_cases hB : a = t1 ∧ (0 : ℕ) = m1
      · rw [if_pos (show a ≤ t1 ∧ t1 < a + (n + 1) ∧ m1 = 0 by omega)]
        have hb : bufAppend b a 0 (v a) t1 m1 = b t1 m1 ++ [v a] := by
          rw [bufAppend, if_pos hB]
        rw [hb, hB.1]
      · rw [if_neg ?_]
        · rw [bufAppend, if_neg hB]
        · intro hc
          rcases hc with ⟨hc1, hc2, hc3⟩
          rcases Nat.eq_or_lt_of_le hc1 with he | hl
          · exact hB ⟨he, by omega⟩
          · exact hA ⟨hl, by omega, hc3⟩

/-- The synthetic hidden state of track `t` in the 150-track scenario. -/
def vec150 : ℕ → Vec 1 := fun t => fun _ => (t : ℚ)

/-- The synthetic 150-track dataset: one position per track id `0 .. 149`,
all in measure 0, streamed in increasing track order. -/
def ps150 : List (AggPos 1) := (List.range 150).map (fun t : ℕ => (t, 0, vec150 t))

lemma ps150_split :
    ps150
      = (List.range' 0 100).map (fun t : ℕ => ((t, 0, vec150 t) : AggPos 1))
          ++ ((100, 0, vec150 100)
            :: (List.range' 101 49).map (fun t : ℕ => ((t, 0, vec150 t) : AggPos 1))) := by
  have h : List.range 150 = List.range' 0 100 ++ 100 :: List.range' 101 49 := by decide
  rw [ps150, h, List.map_append, List.map_cons]

lemma ps150_run :
    ps150.foldl (aggStep 100) (aggInit 1 100)
      = { res := flushTable (fun _ _ => none)
            (fun t1 m1 => if 0 ≤ t1 ∧ t1 < 0 + 100 ∧ m1 = 0 then [vec150 t1] else []),
          buf := fun t1 m1 =>
            if 101 ≤ t1 ∧ t1 < 101 + 49 ∧ m1 = 0
            then (if (100 : ℕ) = t1 ∧ (0 : ℕ) = m1 then [vec150 100] else []) ++ [vec150 t1]
            else (if (100 : ℕ) = t1 ∧ (0 : ℕ) = m1 then [vec150 100] else []),
          thr := 200 } := by
  have hA : ∀ p ∈ (List.range' 0 100).map (fun t : ℕ => ((t, 0, vec150 t) : AggPos 1)),
      p.1 < (aggInit 1 100).thr := by
    intro p hp
    rcases List.mem_map.mp hp with ⟨t, ht, rfl⟩
    exact (List.mem_range'_1.mp ht).2
  rw [ps150_split, List.foldl_append, agg_fold_no_flush 100 _ _ hA, buf_range' vec150 100 0,
    List.foldl_cons]
  have hstep : aggStep 100
      ({ res := (aggInit 1 100).res,
         buf := fun t1 m1 =>
           if 0 ≤ t1 ∧ t1 < 0 + 100 ∧ m1 = 0
           then (aggInit 1 100).buf t1 m1 ++ [vec150 t1] else (aggInit 1 100).buf t1 m1,
         thr := (aggInit 1 100).thr } : AggState 1) (100, 0, vec150 100)
      = { res := flushTable (fun _ _ => none)
            (fun t1 m1 => if 0 ≤ t1 ∧ t1 < 0 + 100 ∧ m1 = 0 then [vec150 t1] else []),
          buf := fun t1 m1 => if (100 : ℕ) = t1 ∧ (0 : ℕ) = m1 then [vec150 100] else [],
          thr := 200 } := by
    rw [aggStep]
    norm_num [bufAppend, flushTable, aggInit]
    funext t1 m1
    by_cases h : (100 : ℕ) = t1 ∧ (0 : ℕ) = m1
    · rcases h with ⟨h1, h2⟩
      subst h1
      subst h2
      rfl
    · simp only [bufAppend, if_neg h]
  rw [hstep]
  have hC : ∀ p ∈ (List.range' 101 49).map (fun t : ℕ => ((t, 0, vec150 t) : AggPos 1)),
      p.1 < (200 : ℕ) := by
    intro p hp
    rcases List.mem_map.mp hp with ⟨t, ht, rfl⟩
    have := (List.mem_range'_1.mp ht).2
    omega
  rw [agg_fold_no_flush 100 _ _ hC, buf_range' vec150 49 101]

lemma ps150_buf (t1 m1 : ℕ) :
    (ps150.foldl (aggStep 100) (aggInit 1 100)).buf t1 m1
      = if 100 ≤ t1 ∧ t1 < 150 ∧ m1 = 0 then [vec150 t1] else [] := by
  rw [ps150_run]
  show (if 101 ≤ t1 ∧ t1 < 150 ∧ m1 = 0
      then (if (100 : ℕ) = t1 ∧ (0 : ℕ) = m1 then [vec150 100] else []) ++ [vec150 t1]
      else (if (100 : ℕ) = t1 ∧ (0 : ℕ) = m1 then [vec150 100] else [])) = _
  by_cases h1 : 101 ≤ t1 ∧ t1 < 150 ∧ m1 = 0
  · rw [if_pos h1, if_neg (by omega), if_pos (by omega)]
    rfl
  · rw [if_neg h1]
    by_cases h2 : (100 : ℕ) = t1 ∧ (0 : ℕ) = m1
    · rw [if_pos h2, if_pos (by omega), h2.1]
    · rw [if_neg h2, if_neg (by omega)]

lemma ps150_res (t1 m1 : ℕ) :
    (ps150.foldl (aggStep 100) (aggInit 1 100)).res t1 m1
      = if t1 < 100 ∧ m1 = 0 then some (vecMean [vec150 t1]) else none := by
  rw [ps150_run]
  show flushTable (fun _ _ => none)
      (fun t1 m1 => if 0 ≤ t1 ∧ t1 < 0 + 100 ∧ m1 = 0 then [vec150 t1] else []) t1 m1 = _
  simp only [flushTable]
  by_cases h : t1 < 100 ∧ m1 = 0
  · rw [if_pos (show 0 ≤ t1 ∧ t1 < 0 + 100 ∧ m1 = 0 by omega), if_neg (by simp), if_pos h]
  · rw [if_neg (show ¬(0 ≤ t1 ∧ t1 < 0 + 100 ∧ m1 = 0) by omega), if_pos rfl, if_neg h]

/-- C3: on the synthetic dataset of 150 distinct increasing track ids (all in
measure 0) with the default watermark 100 and increment 100, the flush trace
is true exactly at the first position whose track id is 100 (one intermediate
flush), the threshold ends at 200 (raised exactly once), the final table
holds exactly the 150 track entries, each mapped to its own (singleton-mean)
hidden state with nothing lost or overwritten, and the final buffer dump
covers exactly the keys of tracks 100 through 149. -/
theorem aggregator_150_tracks_scenario :
    flushFlags 100 100 (ps150.map (fun p => p.1))
      = (List.range 150).map (fun i => decide (i = 100)) ∧
    (ps150.foldl (aggStep 100) (aggInit 1 100)).thr = 200 ∧
    (∀ t : ℕ, t < 150 → generate_measure_encodings ps150 t 0 = some (vec150 t)) ∧
    (∀ t m : ℕ, 150 ≤ t ∨ m ≠ 0 → generate_measure_encodings ps150 t m = none) ∧
    (∀ t : ℕ, (ps150.foldl (aggStep 100) (aggInit 1 100)).buf t 0
      = if 100 ≤ t ∧ t < 150 then [vec150 t] else []) := by
  refine ⟨by decide, by rw [ps150_run], ?_, ?_, ?_⟩
  · intro t ht
    show flushTable (ps150.foldl (aggStep 100) (aggInit 1 100)).res
      (ps150.foldl (aggStep 100) (aggInit 1 100)).buf t 0 = _
    simp only [flushTable]
    rw [ps150_buf t 0, ps150_res t 0]
    by_cases h : 100 ≤ t
    · rw [if_pos (show 100 ≤ t ∧ t < 150 ∧ (0 : ℕ) = 0 by omega), if_neg (by simp),
        vecMean_singleton]
    · rw [if_neg (show ¬(100 ≤ t ∧ t < 150 ∧ (0 : ℕ) = 0) by omega), if_pos rfl,
        if_pos (show t < 100 ∧ (0 : ℕ) = 0 by omega), vecMean_singleton]
  · intro t m hm
    show flushTable (ps150.foldl (aggStep 100) (aggInit 1 100)).res
      (ps150.foldl (aggStep 100) (aggInit 1 100)).buf t m = _
    simp only [flushTable]
    rw [ps150_buf t m, ps150_res t m,
      if_neg (show ¬(100 ≤ t ∧ t < 150 ∧ m = 0) by omega), if_pos rfl,
      if_neg (show ¬(t < 100 ∧ m = 0) by omega)]
  · intro t
    rw [ps150_buf t 0]
    by_cases h : 100 ≤ t ∧ t < 150
    · rw [if_pos (show 100 ≤ t ∧ t < 150 ∧ (0 : ℕ) = 0 by omega), if_pos h]
    · rw [if_neg (show ¬(100 ≤ t ∧ t < 150 ∧ (0 : ℕ) = 0) by omega), if_neg h]

/-- C3 witness: track 42 is present with its own hidden state, and nothing is
stored under measure 1. -/
theorem aggregator_150_tracks_scenario_witness :
    (42 < 150 ∧ (150 ≤ 42 ∨ (1 : ℕ) ≠ 0)) ∧
    generate_measure_encodings ps150 42 0 = some (vec150 42) ∧
    generate_measure_encodings ps150 42 1 = none :=
  ⟨⟨by norm_num, Or.inr (by norm_num)⟩,
    aggregator_150_tracks_scenario.2.2.1 42 (by norm_num),
    aggregator_150_tracks_scenario.2.2.2.1 42 1 (Or.inr (by norm_num))⟩
